import Mathlib

/-!
Shallow embedding of the Dashboard-machine application core: the machine
record data model, the collection store operations of the `useMachines` hook
(add, update, delete, undo), the view projection of `App.tsx`, the add-form
validation of `AddMachineForm.tsx`, and the local-storage persistence layer
of `useLocalStorage` (including the date reviver), together with theorems
settling the behavioural claims of the specification.
-/

/-- Status enumeration of a machine (the `MachineStatus` enum: Idle, Running,
Offline). -/
inductive MachineStatus where
  | Idle
  | Running
  | Offline
  deriving DecidableEq, Repr

/-- Machine record (`src/types/Machine.ts`).  `lastUpdated` is a `Date` in the
source; it is embedded as its integer timestamp. -/
structure Machine where
  id : String
  name : String
  status : MachineStatus
  lastUpdated : Int
  deriving DecidableEq, Repr

/-- State held by the `useMachines` hook: the canonical ordered collection and
the single-slot undo buffer (`lastDeleted`, a record together with its original
index, or nothing). -/
structure MachinesState where
  machines : List Machine
  lastDeleted : Option (Machine × Nat)
  deriving DecidableEq, Repr

/-- Embedding of `addMachine`: `setMachines([...machines, machine])` appends
the fully-formed record at the end of the collection. -/
def addMachine (machine : Machine) (s : MachinesState) : MachinesState :=
  { s with machines := s.machines ++ [machine] }

/-- Embedding of `updateMachine`:
`setMachines(machines.map(m => m.id === updated.id ? updated : m))`. -/
def updateMachine (updated : Machine) (s : MachinesState) : MachinesState :=
  { s with machines := s.machines.map (fun m => if m.id == updated.id then updated else m) }

/-- Embedding of `deleteMachine`: JS `prev.findIndex(m => m.id === id)` is
`findIdx?` (the `-1` sentinel rendered as `none`); when an index is found, the
record at that index (`prev[index]`) and the index are written into the undo
buffer, and the new collection is `prev.filter(m => m.id !== id)`, which
removes every record whose id matches.  The inner `none` branch only mirrors
the totality of Lean's indexing: `findIdx?` returns indices in bounds, so that
branch is unreachable (proved below). -/
def deleteMachine (id : String) (s : MachinesState) : MachinesState :=
  match s.machines.findIdx? (fun m => m.id == id) with
  | none => s
  | some index =>
    match s.machines[index]? with
    | none => s
    | some machine =>
      { machines := s.machines.filter (fun m => m.id != id)
        lastDeleted := some (machine, index) }

/-- Embedding of `undoDelete`: when the buffer holds `(machine, index)`, the
source copies the collection and runs `next.splice(index, 0, machine)`, then
clears the buffer; when the buffer is empty it returns without touching
anything.  JS `splice` clamps a start position beyond the array length to the
length, which is exactly the behaviour of `take index ++ machine :: drop
index`. -/
def undoDelete (s : MachinesState) : MachinesState :=
  match s.lastDeleted with
  | none => s
  | some (machine, index) =>
    { machines := s.machines.take index ++ machine :: s.machines.drop index
      lastDeleted := none }

/-- Status filter value of the dashboard view: the TS union
`MachineStatus | 'ALL'`. -/
inductive StatusFilterValue where
  | ALL
  | status (st : MachineStatus)
  deriving DecidableEq, Repr

/-- Status predicate of the projection:
`statusFilter === 'ALL' || machine.status === statusFilter`. -/
def matchesStatus (statusFilter : StatusFilterValue) (machine : Machine) : Bool :=
  match statusFilter with
  | .ALL => true
  | .status st => machine.status == st

/-- Helper for the character-level model of JS `String.prototype.includes`:
whether `sub` occurs at the very start of `l`. -/
def isPrefixL : List Char → List Char → Bool
  | [], _ => true
  | _ :: _, [] => false
  | a :: as, b :: bs => a == b && isPrefixL as bs

/-- Character-level model of JS `String.prototype.includes`: whether `sub`
occurs contiguously anywhere in `l`. -/
def containsL (sub : List Char) : List Char → Bool
  | [] => sub.isEmpty
  | b :: bs => isPrefixL sub (b :: bs) || containsL sub bs

/-- JS `toLowerCase`, taken as the character list of the lowered string. -/
def lowerChars (s : String) : List Char := s.toList.map Char.toLower

/-- Embedding of the `filteredMachines` projection in `App.tsx`:
`machines.filter(machine => matchesStatus && machesSearch)` where the search
test is `machine.name.toLowerCase().includes(searchQuery.toLowerCase())`. -/
def filteredMachines (machines : List Machine) (statusFilter : StatusFilterValue)
    (searchQuery : String) : List Machine :=
  machines.filter (fun machine =>
    matchesStatus statusFilter machine &&
      containsL (lowerChars searchQuery) (lowerChars machine.name))

/-- Result of the add form's `submit` handler in `AddMachineForm.tsx`: the
store state afterwards and the error message shown to the user (the empty
string when no validation error was raised). -/
structure SubmitResult where
  state : MachinesState
  error : String
  deriving DecidableEq, Repr

/-- Character-level model of JS `String.prototype.trim`: drop whitespace from
both ends of the character list. -/
def trimChars (l : List Char) : List Char :=
  ((l.dropWhile Char.isWhitespace).reverse.dropWhile Char.isWhitespace).reverse

/-- Embedding of `submit` in `AddMachineForm.tsx`.  `newId` stands for the
generated `crypto.randomUUID()` and `now` for `new Date()`.  When the trimmed
name is shorter than 2 characters the handler sets the error message and
returns before calling `onAdd`; otherwise it calls `onAdd` — which is
`addMachine` — with the fully formed record (note: the untrimmed name). -/
def submit (name : String) (status : MachineStatus) (newId : String) (now : Int)
    (s : MachinesState) : SubmitResult :=
  if (trimChars name.toList).length < 2 then
    { state := s, error := "Name must be at least 2 characters" }
  else
    { state := addMachine { id := newId, name := name, status := status, lastUpdated := now } s
      error := "" }

/-- Lookup in the durable string-keyed store (browser `localStorage`),
modelled as an association list with the most recent binding first
(`localStorage.getItem`). -/
def storeGet (key : String) : List (String × String) → Option String
  | [] => none
  | (k, v) :: rest => if k == key then some v else storeGet key rest

/-- Write to the durable store (`localStorage.setItem`): the new binding
shadows any previous binding of the same key. -/
def storeSet (key v : String) (st : List (String × String)) : List (String × String) :=
  (key, v) :: st

/-- Textual rendering of a status value, as JSON.stringify prints the string
enum members. -/
def serializeStatus : MachineStatus → String
  | .Idle => "Idle"
  | .Running => "Running"
  | .Offline => "Offline"

/-- Rendering of one machine as its JSON object text (`JSON.stringify`).  The
ISO rendering of the timestamp is abstracted to its decimal value and string
escaping is not modelled: the persistence claims depend only on the persisted
text being the serialization of the current snapshot. -/
def serializeMachine (m : Machine) : String :=
  "\x7b\"id\":\"" ++ m.id ++ "\",\"name\":\"" ++ m.name ++ "\",\"status\":\"" ++
    serializeStatus m.status ++ "\",\"lastUpdated\":\"" ++ toString m.lastUpdated ++ "\"\x7d"

/-- Rendering of the whole collection as its JSON array text. -/
def serializeMachines (l : List Machine) : String :=
  "[" ++ String.intercalate (",") (l.map serializeMachine) ++ "]"

/-- Whole-system state for the persistence claims: the `useMachines` hook
state plus the durable store contents. -/
structure SysState where
  machines : List Machine
  lastDeleted : Option (Machine × Nat)
  store : List (String × String)
  deriving DecidableEq, Repr

/-- Key under which the collection is persisted: `useMachines` passes the
literal `'machines'` to `useLocalStorage`. -/
def machinesKey : String := "machines"

/-- Write-back effect of `useLocalStorage`
(`useEffect(() => localStorage.setItem(key, JSON.stringify(value)), [key, value])`):
the current snapshot is serialized and written under the key.  In the
single-threaded model the effect runs before any further observation, so it is
composed directly with each state change that produces a new collection
value. -/
def persistMachines (s : SysState) : SysState :=
  { s with store := storeSet machinesKey (serializeMachines s.machines) s.store }

/-- The `addMachine` mutator together with its persistence effect: the setter
always builds a fresh array, so the effect always fires. -/
def addMachineP (machine : Machine) (s : SysState) : SysState :=
  persistMachines { s with machines := s.machines ++ [machine] }

/-- The `updateMachine` mutator together with its persistence effect: `map`
always builds a fresh array, so the effect always fires. -/
def updateMachineP (updated : Machine) (s : SysState) : SysState :=
  persistMachines
    { s with machines := s.machines.map (fun m => if m.id == updated.id then updated else m) }

/-- The `deleteMachine` mutator together with its persistence effect.  When
the id is absent the setter returns the previous array unchanged, no re-render
happens and the effect does not fire; when a record is removed a fresh array
is produced and the new snapshot is persisted. -/
def deleteMachineP (id : String) (s : SysState) : SysState :=
  match s.machines.findIdx? (fun m => m.id == id) with
  | none => s
  | some index =>
    match s.machines[index]? with
    | none => s
    | some machine =>
      persistMachines
        { s with machines := s.machines.filter (fun m => m.id != id)
                 lastDeleted := some (machine, index) }

/-- The `undoDelete` mutator together with its persistence effect: with an
empty buffer the handler returns before calling the setter, so nothing is
written; otherwise the spliced fresh array is persisted. -/
def undoDeleteP (s : SysState) : SysState :=
  match s.lastDeleted with
  | none => s
  | some (machine, index) =>
    persistMachines
      { s with machines := s.machines.take index ++ machine :: s.machines.drop index
               lastDeleted := none }

/-- JSON value tree extended with a date node: the result type of JS
`JSON.parse` once the `dateReviver` has run (the reviver turns some string
leaves into `Date` objects, embedded as `jdate` with the timestamp). -/
inductive JVal where
  | jnull
  | jbool (b : Bool)
  | jnum (n : Int)
  | jstr (s : String)
  | jdate (t : Int)
  | jarr (elems : List JVal)
  | jobj (fields : List (String × JVal))

mutual

/-- Embedding of `dateReviver` applied throughout a parsed JSON tree:
`JSON.parse(stored, dateReviver)` calls the reviver on every produced value,
and `dateReviver` replaces exactly the string values that parse as valid
dates.  `parseDate` stands for JS `new Date(value)` together with the
`!isNaN(date.getTime())` validity test: `some t` when `value` parses as a
valid date with timestamp `t`, `none` otherwise. -/
def revive (parseDate : String → Option Int) : JVal → JVal
  | .jstr s =>
    match parseDate s with
    | some t => .jdate t
    | none => .jstr s
  | .jarr elems => .jarr (reviveList parseDate elems)
  | .jobj fields => .jobj (reviveFields parseDate fields)
  | v => v

/-- Date revival mapped over the elements of a JSON array. -/
def reviveList (parseDate : String → Option Int) : List JVal → List JVal
  | [] => []
  | v :: vs => revive parseDate v :: reviveList parseDate vs

/-- Date revival mapped over the fields of a JSON object. -/
def reviveFields (parseDate : String → Option Int) :
    List (String × JVal) → List (String × JVal)
  | [] => []
  | (k, v) :: fs => (k, revive parseDate v) :: reviveFields parseDate fs

end

mutual

/-- Leaves of a JSON tree (every non-array, non-object node), in order. -/
def leaves : JVal → List JVal
  | .jarr elems => leavesList elems
  | .jobj fields => leavesFields fields
  | v => [v]

/-- Leaves of the elements of a JSON array, concatenated in order. -/
def leavesList : List JVal → List JVal
  | [] => []
  | v :: vs => leaves v ++ leavesList vs

/-- Leaves of the field values of a JSON object, concatenated in order. -/
def leavesFields : List (String × JVal) → List JVal
  | [] => []
  | (_, v) :: fs => leaves v ++ leavesFields fs

end

/-- Action of date revival on a single leaf, stated as the specification
words it: a string leaf parseable as a valid date becomes the corresponding
timestamp leaf; every other leaf is unchanged. -/
def reviveLeaf (parseDate : String → Option Int) : JVal → JVal
  | .jstr s =>
    match parseDate s with
    | some t => .jdate t
    | none => .jstr s
  | v => v

/-- Lookup in the durable store at the level of parsed JSON trees. -/
def jstoreGet (key : String) : List (String × JVal) → Option JVal
  | [] => none
  | (k, v) :: rest => if k == key then some v else jstoreGet key rest

/-- Embedding of the lazy initializer of `useLocalStorage`.  The textual store
is modelled at the level of parsed JSON trees (`JSON.stringify` followed by
`JSON.parse` on a well-formed value is abstracted as the identity): a stored
text corresponds to a stored `JVal`, `JSON.parse(stored, dateReviver)` to
`revive parseDate stored`, and `localStorage.setItem(key, JSON.stringify(seed))`
to binding the seed tree under the key.  The initializer returns the initial
in-memory value together with the store after initialization. -/
def loadStore (parseDate : String → Option Int) (key : String)
    (store : List (String × JVal)) (initialValue : JVal) (seed : Option JVal) :
    JVal × List (String × JVal) :=
  match jstoreGet key store with
  | some stored => (revive parseDate stored, store)
  | none =>
    match seed with
    | some sv => (sv, (key, sv) :: store)
    | none => (initialValue, store)

/-- Specification reading of undo's reinsertion: insert the buffered record at
the buffered index, clamped to the current collection length when the
collection has shrunk below that index. -/
def specReinsert (index : Nat) (machine : Machine) (l : List Machine) : List Machine :=
  l.insertIdx (min index l.length) machine

theorem isPrefixL_iff (sub : List Char) : ∀ l : List Char,
    (isPrefixL sub l = true ↔ ∃ post, l = sub ++ post) := by
  induction sub with
  | nil => intro l; simp [isPrefixL]
  | cons a as ih =>
    intro l
    cases l with
    | nil =>
      simp [isPrefixL]
    | cons b bs =>
      simp only [isPrefixL, Bool.and_eq_true, beq_iff_eq, ih, List.cons_append]
      constructor
      · rintro ⟨rfl, post, rfl⟩
        exact ⟨post, rfl⟩
      · rintro ⟨post, heq⟩
        obtain ⟨rfl, rfl⟩ := List.cons.inj heq
        exact ⟨rfl, post, rfl⟩

theorem containsL_iff (sub : List Char) : ∀ l : List Char,
    (containsL sub l = true ↔ ∃ pre post, l = pre ++ sub ++ post) := by
  intro l
  induction l with
  | nil =>
    simp only [containsL, List.isEmpty_iff]
    constructor
    · rintro rfl
      exact ⟨[], [], rfl⟩
    · rintro ⟨pre, post, heq⟩
      rcases List.append_eq_nil.mp heq.symm with ⟨h1, h2⟩
      exact (List.append_eq_nil.mp h1).2
  | cons b bs ih =>
    simp only [containsL, Bool.or_eq_true, isPrefixL_iff, ih]
    constructor
    · rintro (⟨post, heq⟩ | ⟨pre, post, rfl⟩)
      · exact ⟨[], post, by simpa using heq⟩
      · exact ⟨b :: pre, post, rfl⟩
    · rintro ⟨pre, post, heq⟩
      cases pre with
      | nil =>
        left
        exact ⟨post, by simpa using heq⟩
      | cons c cs =>
        right
        obtain ⟨rfl, h⟩ := List.cons.inj heq
        exact ⟨cs, post, by simpa using h⟩

theorem containsL_nil_left : ∀ l : List Char, containsL [] l = true := by
  intro l
  cases l with
  | nil => rfl
  | cons b bs => simp [containsL, isPrefixL]

theorem matchesStatus_iff (f : StatusFilterValue) (m : Machine) :
    matchesStatus f m = true ↔ (f = .ALL ∨ f = .status m.status) := by
  cases f with
  | ALL => simp [matchesStatus]
  | status st =>
    simp only [matchesStatus, beq_iff_eq]
    constructor
    · rintro rfl
      right
      rfl
    · rintro (h | h)
      · exact absurd h (by simp)
      · exact (StatusFilterValue.status.inj h).symm

theorem splice_eq_insertIdx (m : Machine) : ∀ (l : List Machine) (i : Nat),
    l.take i ++ m :: l.drop i = l.insertIdx (min i l.length) m := by
  intro l
  induction l with
  | nil => intro i; simp [List.insertIdx]
  | cons x xs ih =>
    intro i
    cases i with
    | zero => simp [List.insertIdx]
    | succ i =>
      simp only [List.take_succ_cons, List.drop_succ_cons, List.length_cons,
        Nat.succ_min_succ, List.insertIdx_succ_cons, List.cons_append, ih]

/-- C2: when the undo buffer holds a `(record, index)` pair, `undoDelete`
reinserts the buffered record at the buffered index clamped to the current
collection length and clears the buffer; when the buffer is empty it is a
no-op on the whole state. -/
theorem undoDelete_reinserts_clamped_and_clears (s : MachinesState) :
    undoDelete s =
      match s.lastDeleted with
      | none => s
      | some (machine, index) =>
        { machines := specReinsert index machine s.machines
          lastDeleted := none } := by
  cases h : s.lastDeleted with
  | none => simp [undoDelete, h]
  | some p =>
    obtain ⟨machine, index⟩ := p
    simp [undoDelete, h, specReinsert, ← splice_eq_insertIdx]

/-- C3: a record is in the projection iff it is in the collection, its status
passes the filter (`ALL` or equal status), and its lowered name contains the
lowered search text as a contiguous substring; the projection is a sublist of
the input (relative order preserved), and the empty search text matches every
record. -/
theorem filteredMachines_characterization (machines : List Machine)
    (f : StatusFilterValue) (q : String) :
    List.Sublist (filteredMachines machines f q) machines ∧
    (∀ m, m ∈ filteredMachines machines f q ↔
      m ∈ machines ∧ (f = .ALL ∨ f = .status m.status) ∧
      ∃ pre post, lowerChars m.name = pre ++ lowerChars q ++ post) ∧
    (q = "" → ∀ m : Machine, containsL (lowerChars q) (lowerChars m.name) = true) := by
  refine ⟨List.filter_sublist _, fun m => ?_, fun hq m => ?_⟩
  · simp [filteredMachines, List.mem_filter, Bool.and_eq_true, matchesStatus_iff,
      containsL_iff, and_assoc]
  · subst hq
    exact containsL_nil_left _

/-- Witness for C3: with the empty search text, the record named `Cutter A`
passes the search predicate. -/
theorem filteredMachines_characterization_witness :
    containsL (lowerChars ("")) (lowerChars ("Cutter A")) = true :=
  (filteredMachines_characterization [] .ALL ("")).2.2 rfl
    { id := "id0", name := "Cutter A", status := .Running, lastUpdated := 0 }

/-- C4: an attempted add whose name trims to fewer than 2 characters is
rejected before any mutation — the state is unchanged and the error message is
non-empty — while an add whose trimmed name has at least 2 characters appends
the fully formed record and raises no error. -/
theorem submit_validates_name (name : String) (status : MachineStatus)
    (newId : String) (now : Int) (s : MachinesState) :
    ((trimChars name.toList).length < 2 →
      (submit name status newId now s).state = s ∧
      (submit name status newId now s).error ≠ "") ∧
    (2 ≤ (trimChars name.toList).length →
      (submit name status newId now s).state.machines
        = s.machines ++ [{ id := newId, name := name, status := status, lastUpdated := now }] ∧
      (submit name status newId now s).error = "") := by
  constructor
  · intro h
    have h1 : (trimChars name.data).length < 2 := h
    simp [submit, h1]
  · intro h
    have h2 : ¬ (trimChars name.data).length < 2 := Nat.not_lt.mpr h
    simp [submit, h2, addMachine]

/-- Witness for C4: `add` with name `"A"` is rejected leaving the empty store
unchanged, and `add` with name `"AB"` appends the record. -/
theorem submit_validates_name_witness :
    (submit ("A") .Idle ("id1") 0 { machines := [], lastDeleted := none }).state
      = { machines := [], lastDeleted := none } ∧
    (submit ("AB") .Idle ("id1") 0 { machines := [], lastDeleted := none }).state.machines
      = [{ id := "id1", name := "AB", status := .Idle, lastUpdated := 0 }] :=
  ⟨((submit_validates_name ("A") .Idle ("id1") 0 { machines := [], lastDeleted := none }).1
      (by decide)).1,
   by
    have h := ((submit_validates_name ("AB") .Idle ("id1") 0
      { machines := [], lastDeleted := none }).2 (by decide)).1
    simpa using h⟩

theorem map_update_id_absent (u : Machine) : ∀ l : List Machine,
    u.id ∉ l.map Machine.id →
    l.map (fun m => if m.id == u.id then u else m) = l := by
  intro l
  induction l with
  | nil => intro _; rfl
  | cons x xs ih =>
    intro hu
    have hx : (x.id == u.id) = false := by
      simp only [beq_eq_false_iff_ne, ne_eq]
      intro he
      exact hu (List.mem_map.mpr ⟨x, List.mem_cons_self x xs, he⟩)
    have hxs : u.id ∉ xs.map Machine.id := fun hmem => hu (by
      rcases List.mem_map.mp hmem with ⟨m, hm, hme⟩
      exact List.mem_map.mpr ⟨m, List.mem_cons_of_mem x hm, hme⟩)
    rw [List.map_cons, ih hxs]
    congr 1
    simp [hx]

/-- C7: updating a record whose id is absent and deleting an absent id are
both silent no-ops: the whole state — collection and undo buffer alike — is
returned unchanged, and no error path exists in either operation. -/
theorem absent_id_ops_noop (s : MachinesState) (u : Machine) (id : String)
    (hu : u.id ∉ s.machines.map Machine.id)
    (hid : id ∉ s.machines.map Machine.id) :
    updateMachine u s = s ∧ deleteMachine id s = s := by
  constructor
  · cases s with
    | mk ms buf =>
      simp only [updateMachine]
      rw [map_update_id_absent u ms (by simpa using hu)]
  · have hnone : s.machines.findIdx? (fun m => m.id == id) = none :=
      List.findIdx?_eq_none_iff.mpr (fun x hx => by
        simp only [beq_eq_false_iff_ne, ne_eq]
        intro he
        exact hid (List.mem_map.mpr ⟨x, hx, he⟩))
    simp [deleteMachine, hnone]

/-- Witness for C7: on a one-record collection holding id `a`, updating a
record with id `b` and deleting id `b` both leave the state unchanged. -/
theorem absent_id_ops_noop_witness :
    updateMachine { id := "b", name := "BB", status := .Idle, lastUpdated := 0 }
        { machines := [{ id := "a", name := "AA", status := .Running, lastUpdated := 0 }],
          lastDeleted := none }
      = { machines := [{ id := "a", name := "AA", status := .Running, lastUpdated := 0 }],
          lastDeleted := none } ∧
    deleteMachine ("b")
        { machines := [{ id := "a", name := "AA", status := .Running, lastUpdated := 0 }],
          lastDeleted := none }
      = { machines := [{ id := "a", name := "AA", status := .Running, lastUpdated := 0 }],
          lastDeleted := none } :=
  absent_id_ops_noop _ _ _ (by decide) (by decide)

/-- C8: `updateMachine` never changes the length of the collection nor the
per-position ids (hence neither the set of ids present), and each element
whose id matches the incoming record is replaced by it in place. -/
theorem update_preserves_length_ids_position (s : MachinesState) (u : Machine) :
    (updateMachine u s).machines.length = s.machines.length ∧
    (updateMachine u s).machines.map Machine.id = s.machines.map Machine.id ∧
    (∀ (i : Nat) (m : Machine), s.machines[i]? = some m → m.id = u.id →
      (updateMachine u s).machines[i]? = some u) := by
  refine ⟨by simp [updateMachine], ?_, ?_⟩
  · simp only [updateMachine, List.map_map]
    apply List.map_congr_left
    intro m _
    by_cases h : m.id = u.id
    · simp [Function.comp, h]
    · simp [Function.comp, h]
  · intro i m hm hid
    simp [updateMachine, List.getElem?_map, hm, hid]

/-- Witness for C8: updating the sole record of a collection by id replaces it
at position 0. -/
theorem update_preserves_length_ids_position_witness :
    (updateMachine { id := "a", name := "A2", status := .Idle, lastUpdated := 1 }
        { machines := [{ id := "a", name := "AA", status := .Running, lastUpdated := 0 }],
          lastDeleted := none }).machines[0]?
      = some { id := "a", name := "A2", status := .Idle, lastUpdated := 1 } :=
  (update_preserves_length_ids_position
      { machines := [{ id := "a", name := "AA", status := .Running, lastUpdated := 0 }],
        lastDeleted := none }
      { id := "a", name := "A2", status := .Idle, lastUpdated := 1 }).2.2 0
    { id := "a", name := "AA", status := .Running, lastUpdated := 0 } rfl rfl

/-- C5: assuming the persisted value matches the serialization of the current
collection, it still does after any of the four operations: every operation
that produces a new collection value writes the serialized new snapshot under
the store key as part of the same step. -/
theorem mutations_persist_snapshot (s : SysState)
    (hinv : storeGet machinesKey s.store = some (serializeMachines s.machines)) :
    (∀ m, storeGet machinesKey (addMachineP m s).store
        = some (serializeMachines (addMachineP m s).machines)) ∧
    (∀ u, storeGet machinesKey (updateMachineP u s).store
        = some (serializeMachines (updateMachineP u s).machines)) ∧
    (∀ id, storeGet machinesKey (deleteMachineP id s).store
        = some (serializeMachines (deleteMachineP id s).machines)) ∧
    storeGet machinesKey (undoDeleteP s).store
        = some (serializeMachines (undoDeleteP s).machines) := by
  have hpersist : ∀ t : SysState, storeGet machinesKey (persistMachines t).store
      = some (serializeMachines (persistMachines t).machines) := by
    intro t
    simp [persistMachines, storeSet, storeGet]
  refine ⟨fun m => hpersist _, fun u => hpersist _, fun id => ?_, ?_⟩
  · cases hfind : s.machines.findIdx? (fun m => m.id == id) with
    | none => simpa [deleteMachineP, hfind] using hinv
    | some index =>
      cases hget : s.machines[index]? with
      | none => simpa [deleteMachineP, hfind, hget] using hinv
      | some machine =>
        simp only [deleteMachineP, hfind, hget]
        exact hpersist _
  · cases hbuf : s.lastDeleted with
    | none => simpa [undoDeleteP, hbuf] using hinv
    | some p =>
      obtain ⟨machine, index⟩ := p
      simp only [undoDeleteP, hbuf]
      exact hpersist _

/-- Witness for C5: starting from an empty collection whose serialization is
persisted, the invariant still holds after `undoDeleteP` (and the other
operations likewise, per the theorem). -/
theorem mutations_persist_snapshot_witness :
    storeGet machinesKey
        (undoDeleteP
          { machines := [], lastDeleted := none,
            store := [(machinesKey, serializeMachines [])] }).store
      = some (serializeMachines
        (undoDeleteP
          { machines := [], lastDeleted := none,
            store := [(machinesKey, serializeMachines [])] }).machines) :=
  (mutations_persist_snapshot
    { machines := [], lastDeleted := none,
      store := [(machinesKey, serializeMachines [])] } (by simp [storeGet])).2.2.2

mutual

theorem leaves_revive (pd : String → Option Int) :
    ∀ v : JVal, leaves (revive pd v) = (leaves v).map (reviveLeaf pd)
  | .jnull => by simp [revive, leaves, reviveLeaf]
  | .jbool b => by simp [revive, leaves, reviveLeaf]
  | .jnum n => by simp [revive, leaves, reviveLeaf]
  | .jstr s => by
    cases hpd : pd s <;> simp [revive, leaves, reviveLeaf, hpd]
  | .jdate t => by simp [revive, leaves, reviveLeaf]
  | .jarr elems => by
    simp only [revive, leaves]
    exact leavesList_revive pd elems
  | .jobj fields => by
    simp only [revive, leaves]
    exact leavesFields_revive pd fields

theorem leavesList_revive (pd : String → Option Int) :
    ∀ l : List JVal, leavesList (reviveList pd l) = (leavesList l).map (reviveLeaf pd)
  | [] => by simp [reviveList, leavesList]
  | v :: vs => by
    simp only [reviveList, leavesList, List.map_append]
    rw [leaves_revive pd v, leavesList_revive pd vs]

theorem leavesFields_revive (pd : String → Option Int) :
    ∀ l : List (String × JVal),
      leavesFields (reviveFields pd l) = (leavesFields l).map (reviveLeaf pd)
  | [] => by simp [reviveFields, leavesFields]
  | (k, v) :: fs => by
    simp only [reviveFields, leavesFields, List.map_append]
    rw [leaves_revive pd v, leavesFields_revive pd fs]

end

/-- C6: initialization has exactly three cases — a stored value is
deserialized with the date reviver and returned with the store untouched; an
absent value with a seed returns the seed after persisting it; an absent value
without a seed returns the default without persisting — and revival rewrites
the leaves of the deserialized tree exactly by the date-recognition map (each
string leaf parseable as a valid date becomes the timestamp leaf, everything
else is unchanged). -/
theorem load_three_cases (parseDate : String → Option Int) (key : String)
    (store : List (String × JVal)) (initialValue : JVal) (seed : Option JVal) :
    (∀ stored, jstoreGet key store = some stored →
      loadStore parseDate key store initialValue seed = (revive parseDate stored, store)) ∧
    (jstoreGet key store = none → ∀ sv, seed = some sv →
      (loadStore parseDate key store initialValue seed).1 = sv ∧
      jstoreGet key (loadStore parseDate key store initialValue seed).2 = some sv) ∧
    (jstoreGet key store = none → seed = none →
      loadStore parseDate key store initialValue seed = (initialValue, store)) ∧
    (∀ v, leaves (revive parseDate v) = (leaves v).map (reviveLeaf parseDate)) := by
  refine ⟨?_, ?_, ?_, leaves_revive parseDate⟩
  · intro stored hst
    simp [loadStore, hst]
  · intro hnone sv hseed
    subst hseed
    simp [loadStore, hnone, jstoreGet]
  · intro hnone hseed
    subst hseed
    simp [loadStore, hnone]

/-- Witness for C6: on an empty store with a seed, the initializer returns the
seed and persists it under the key. -/
theorem load_three_cases_witness :
    (loadStore (fun _ => none) "machines" [] JVal.jnull (some (JVal.jstr ("x")))).1
      = JVal.jstr ("x") ∧
    jstoreGet ("machines")
        (loadStore (fun _ => none) "machines" [] JVal.jnull (some (JVal.jstr ("x")))).2
      = some (JVal.jstr ("x")) :=
  (load_three_cases (fun _ => none) "machines" [] .jnull (some (.jstr ("x")))).2.1 rfl _ rfl

theorem deleteMachine_found (s : MachinesState) (id : String)
    (h : id ∈ s.machines.map Machine.id) :
    ∃ (i : Nat) (hi : i < s.machines.length),
      s.machines.findIdx? (fun m => m.id == id) = some i ∧
      deleteMachine id s =
        { machines := s.machines.filter (fun m => m.id != id)
          lastDeleted := some (s.machines.get ⟨i, hi⟩, i) } ∧
      (s.machines.get ⟨i, hi⟩).id = id ∧
      ∀ (j : Nat) (hj : j < i), (s.machines.get ⟨j, Nat.lt_trans hj hi⟩).id ≠ id := by
  obtain ⟨m, hm, hmid⟩ := List.mem_map.mp h
  have hsome : s.machines.findIdx? (fun m => m.id == id)
      = some (s.machines.findIdx (fun m => m.id == id)) :=
    List.findIdx?_eq_some_of_exists ⟨m, hm, by simp [hmid]⟩
  obtain ⟨hi, hp, hfirst⟩ := List.findIdx?_eq_some_iff_getElem.mp hsome
  refine ⟨_, hi, hsome, ?_, ?_, ?_⟩
  · simp only [deleteMachine, hsome, List.getElem?_eq_getElem hi, List.get_eq_getElem]
  · simpa [List.get_eq_getElem] using hp
  · intro j hj
    have hj2 := hfirst j hj
    simpa [List.get_eq_getElem] using hj2

/-- C10: on a collection that may contain several records with the same id,
`deleteMachine id` removes every record whose id matches (no record with that
id remains) while keeping every record whose id differs, and the undo buffer
stores exactly the first matching record together with its index. -/
theorem delete_removes_every_match (s : MachinesState) (id : String)
    (h : id ∈ s.machines.map Machine.id) :
    id ∉ (deleteMachine id s).machines.map Machine.id ∧
    (∀ m ∈ s.machines, m.id ≠ id → m ∈ (deleteMachine id s).machines) ∧
    ∃ (i : Nat) (hi : i < s.machines.length),
      (deleteMachine id s).lastDeleted = some (s.machines.get ⟨i, hi⟩, i) ∧
      (s.machines.get ⟨i, hi⟩).id = id ∧
      ∀ (j : Nat) (hj : j < i), (s.machines.get ⟨j, Nat.lt_trans hj hi⟩).id ≠ id := by
  obtain ⟨i, hi, hfind, hdel, hid_i, hfirst⟩ := deleteMachine_found s id h
  refine ⟨?_, ?_, i, hi, ?_, hid_i, hfirst⟩
  · simp only [hdel]
    intro hmem
    obtain ⟨m, hm, hmid⟩ := List.mem_map.mp hmem
    obtain ⟨_, hm_pass⟩ := List.mem_filter.mp hm
    simp [hmid] at hm_pass
  · intro m hm hne
    simp only [hdel]
    exact List.mem_filter.mpr ⟨hm, by simpa using hne⟩
  · simp only [hdel]

/-- Witness for C10: deleting id `a` from a collection holding two records
with id `a` leaves no record with id `a`. -/
theorem delete_removes_every_match_witness :
    "a" ∉ (deleteMachine ("a")
      { machines := [{ id := "a", name := "A1", status := .Idle, lastUpdated := 0 },
                     { id := "a", name := "A2", status := .Idle, lastUpdated := 0 }],
        lastDeleted := none }).machines.map Machine.id :=
  (delete_removes_every_match
    { machines := [{ id := "a", name := "A1", status := .Idle, lastUpdated := 0 },
                   { id := "a", name := "A2", status := .Idle, lastUpdated := 0 }],
      lastDeleted := none } "a" (by decide)).1

theorem mem_splice_iff (l : List Machine) (i : Nat) (m x : Machine) :
    x ∈ l.take i ++ m :: l.drop i ↔ x = m ∨ x ∈ l := by
  constructor
  · intro hx
    rcases List.mem_append.mp hx with h1 | h2
    · exact Or.inr (List.mem_of_mem_take h1)
    · rcases List.mem_cons.mp h2 with h | h3
      · exact Or.inl h
      · exact Or.inr (List.mem_of_mem_drop h3)
  · intro hx
    rcases hx with rfl | hx
    · exact List.mem_append.mpr (Or.inr (List.mem_cons_self _ _))
    · rw [← List.take_append_drop i l] at hx
      rcases List.mem_append.mp hx with h1 | h2
      · exact List.mem_append.mpr (Or.inl h1)
      · exact List.mem_append.mpr (Or.inr (List.mem_cons_of_mem _ h2))

/-- C9: with two distinct ids `a` and `b` both present, deleting `a` and then
`b` leaves the undo buffer holding a record with id `b` (only the latest
deletion), and the subsequent undo restores a record with id `b` while id `a`
remains absent — the first deletion can no longer be undone. -/
theorem second_delete_overwrites_buffer (s : MachinesState) (a b : String)
    (hab : a ≠ b) (ha : a ∈ s.machines.map Machine.id)
    (hb : b ∈ s.machines.map Machine.id) :
    (∃ (mb : Machine) (i : Nat),
      (deleteMachine b (deleteMachine a s)).lastDeleted = some (mb, i) ∧ mb.id = b) ∧
    a ∉ (undoDelete (deleteMachine b (deleteMachine a s))).machines.map Machine.id ∧
    b ∈ (undoDelete (deleteMachine b (deleteMachine a s))).machines.map Machine.id := by
  obtain ⟨i1, hi1, hfind1, hdel1, hida, hfirst1⟩ := deleteMachine_found s a ha
  have hs1m : (deleteMachine a s).machines = s.machines.filter (fun m => m.id != a) := by
    rw [hdel1]
  have hbin1 : b ∈ (deleteMachine a s).machines.map Machine.id := by
    rw [hs1m]
    obtain ⟨m, hm, hmid⟩ := List.mem_map.mp hb
    refine List.mem_map.mpr ⟨m, List.mem_filter.mpr ⟨hm, ?_⟩, hmid⟩
    simpa [hmid] using Ne.symm hab
  obtain ⟨i2, hi2, hfind2, hdel2, hidb, hfirst2⟩ :=
    deleteMachine_found (deleteMachine a s) b hbin1
  refine ⟨⟨_, i2, by simp only [hdel2], hidb⟩, ?_, ?_⟩
  · rw [hdel2]
    simp only [undoDelete]
    intro hmem
    obtain ⟨x, hx, hxid⟩ := List.mem_map.mp hmem
    rcases (mem_splice_iff _ _ _ _).mp hx with h | hx2
    · exact hab ((h ▸ hxid).symm.trans hidb)
    · obtain ⟨hx3, _⟩ := List.mem_filter.mp hx2
      rw [hs1m] at hx3
      obtain ⟨_, hx_pass⟩ := List.mem_filter.mp hx3
      simp [hxid] at hx_pass
  · rw [hdel2]
    simp only [undoDelete]
    exact List.mem_map.mpr ⟨_, (mem_splice_iff _ _ _ _).mpr (Or.inl rfl), hidb⟩

/-- Witness for C9: on the two-record collection with ids `a` and `b`,
deleting `a` then `b` and undoing restores a record with id `b`. -/
theorem second_delete_overwrites_buffer_witness :
    "b" ∈ (undoDelete (deleteMachine ("b") (deleteMachine ("a")
      { machines := [{ id := "a", name := "AA", status := .Idle, lastUpdated := 0 },
                     { id := "b", name := "BB", status := .Idle, lastUpdated := 0 }],
        lastDeleted := none }))).machines.map Machine.id :=
  (second_delete_overwrites_buffer
    { machines := [{ id := "a", name := "AA", status := .Idle, lastUpdated := 0 },
                   { id := "b", name := "BB", status := .Idle, lastUpdated := 0 }],
      lastDeleted := none } "a" "b" (by decide) (by decide) (by decide)).2.2

theorem filter_ne_eq_take_drop (id : String) (l : List Machine) : ∀ (i : Nat)
    (hi : i < l.length),
    (l.get ⟨i, hi⟩).id = id →
    (∀ (j : Nat) (hj : j < l.length), j ≠ i → (l.get ⟨j, hj⟩).id ≠ id) →
    l.filter (fun m => m.id != id) = l.take i ++ l.drop (i + 1) := by
  induction l with
  | nil =>
    intro i hi _ _
    exact absurd hi (Nat.not_lt_zero i)
  | cons x xs ih =>
    intro i hi hid hothers
    cases i with
    | zero =>
      have hx0 : x.id = id := by simpa using hid
      have hx : (x.id != id) = false := by simp [hx0]
      have hall : ∀ m ∈ xs, (m.id != id) = true := by
        intro m hm
        obtain ⟨⟨j, hj⟩, rfl⟩ := List.mem_iff_get.mp hm
        have hj0 := hothers (j + 1) (Nat.succ_lt_succ hj) (Nat.succ_ne_zero j)
        simpa using hj0
      simp [List.filter_cons, hx, List.filter_eq_self.mpr hall]
    | succ i =>
      have hx : (x.id != id) = true := by
        have h0 := hothers 0 (Nat.succ_pos _) (Ne.symm (Nat.succ_ne_zero i))
        simpa using h0
      have hid2 : (xs.get ⟨i, Nat.lt_of_succ_lt_succ hi⟩).id = id := by
        simpa using hid
      have hoth2 : ∀ (j : Nat) (hj : j < xs.length), j ≠ i → (xs.get ⟨j, hj⟩).id ≠ id := by
        intro j hj hne
        have hj1 := hothers (j + 1) (Nat.succ_lt_succ hj) (fun hcon => hne (Nat.succ.inj hcon))
        simpa using hj1
      simp only [List.filter_cons, hx, if_true, List.take_succ_cons, List.drop_succ_cons,
        List.cons_append]
      rw [ih i (Nat.lt_of_succ_lt_succ hi) hid2 hoth2]

/-- C1: on a collection whose ids are unique (the declared invariant), for any
id present, deleting it and immediately undoing restores the collection with
its content and order intact and leaves the undo buffer empty. -/
theorem delete_then_undo_roundtrip (s : MachinesState) (id : String)
    (hmem : id ∈ s.machines.map Machine.id)
    (hnd : (s.machines.map Machine.id).Nodup) :
    undoDelete (deleteMachine id s) = { machines := s.machines, lastDeleted := none } := by
  obtain ⟨i, hi, hfind, hdel, hid_i, hfirst⟩ := deleteMachine_found s id hmem
  have honly : ∀ (j : Nat) (hj : j < s.machines.length), j ≠ i →
      (s.machines.get ⟨j, hj⟩).id ≠ id := by
    intro j hj hne heq
    have hji : (s.machines.map Machine.id).get ⟨j, by simpa using hj⟩
        = (s.machines.map Machine.id).get ⟨i, by simpa using hi⟩ := by
      simp only [List.get_eq_getElem, List.getElem_map]
      simp only [List.get_eq_getElem] at heq hid_i
      rw [heq, hid_i]
    have hfin := List.nodup_iff_injective_get.mp hnd hji
    exact hne (by simpa using congrArg Fin.val hfin)
  have hfilter := filter_ne_eq_take_drop id s.machines i hi hid_i honly
  rw [hdel]
  simp only [undoDelete]
  rw [hfilter]
  have hlen : (s.machines.take i).length = i := by
    rw [List.length_take]
    exact Nat.min_eq_left (Nat.le_of_lt hi)
  rw [List.take_left' hlen, List.drop_left' hlen]
  have hsplit : s.machines.take i ++ s.machines.get ⟨i, hi⟩ :: s.machines.drop (i + 1)
      = s.machines := by
    conv_rhs => rw [← List.take_append_drop i s.machines]
    congr 1
    simp only [List.get_eq_getElem]
    exact List.getElem_cons_drop s.machines i hi
  rw [hsplit]

/-- Witness for C1: deleting id `a` from the two-record collection and undoing
restores the original collection with an empty buffer. -/
theorem delete_then_undo_roundtrip_witness :
    undoDelete (deleteMachine ("a")
      { machines := [{ id := "a", name := "AA", status := .Running, lastUpdated := 0 },
                     { id := "b", name := "BB", status := .Idle, lastUpdated := 0 }],
        lastDeleted := none })
      = { machines := [{ id := "a", name := "AA", status := .Running, lastUpdated := 0 },
                       { id := "b", name := "BB", status := .Idle, lastUpdated := 0 }],
          lastDeleted := none } :=
  delete_then_undo_roundtrip
    { machines := [{ id := "a", name := "AA", status := .Running, lastUpdated := 0 },
                   { id := "b", name := "BB", status := .Idle, lastUpdated := 0 }],
      lastDeleted := none } "a" (by decide) (by decide)
